import Mathlib

/-!
Verification of the PureCheck image-cleanliness client (src/PureCheck.py).

The development shallowly embeds the pure fragments of the program:

* `extract_code` — the tolerant JSON extraction from a model reply
  (src/PureCheck.py lines 102–116).  The Python implementation searches for
  the leftmost match of the regular expression
  `` ```(?:[A-Za-z0-9]*)\s*\n(.*?)``` `` with `re.DOTALL`, takes the group,
  strips surrounding whitespace and replaces every single quote by a double
  quote.  The regex semantics (leftmost start, greedy tag and whitespace with
  backtracking, lazy group) are reproduced here as executable list functions.
* `local_image_to_data_url` — the base64 data-URL encoder (lines 15–29),
  parametrised by the MIME-guessing function, with the file contents passed
  as a byte list.
* `AzureOpenAIClient.analyze_image` — the request assembly (lines 48–100),
  modelled as the pure chat request value it builds.
* `mainReport` — the result-reporting branch of `main` (lines 172–183),
  modelled as a function from the (optional) candidate list to an outcome.
* `jsonValid` — strict JSON validity (`json.loads` acceptance), used by the
  orchestrator model.
-/

namespace PureCheck

/-- The backtick character (code point 96), written by code to keep the
source text free of stray backticks. -/
def btick : Char := Char.ofNat 96

/-- The single-quote character (code point 39). -/
def squote : Char := Char.ofNat 39

/-- The character class `[A-Za-z0-9]` of the Python pattern (ASCII only). -/
def isAlnumChar (c : Char) : Bool :=
  ('A' ≤ c && c ≤ 'Z') || ('a' ≤ c && c ≤ 'z') || ('0' ≤ c && c ≤ '9')

/-- Python's whitespace class: the characters matched by `\s` in a `str`
pattern and stripped by `str.strip()` (ASCII whitespace, the C1 separators,
NEL, and the Unicode space separators). -/
def isPySpace (c : Char) : Bool :=
  c = ' ' || c = '\t' || c = '\n' || c = '\r' || c = '\x0b' || c = '\x0c' ||
  c = '\x1c' || c = '\x1d' || c = '\x1e' || c = '\x1f' || c = '\x85' ||
  c = '\xa0' || c = ' ' || c = ' ' || c = ' ' || c = ' ' ||
  c = ' ' || c = ' ' || c = ' ' || c = ' ' || c = ' ' ||
  c = ' ' || c = ' ' || c = ' ' || c = ' ' || c = ' ' ||
  c = ' ' || c = ' ' || c = '　'

/-- Does the list begin with three backticks (the fence marker)? -/
def startsTriple : List Char → Bool
  | a :: b :: c :: _ => a = btick && b = btick && c = btick
  | _ => false

/-- Does the triple-backtick marker occur anywhere in the list? -/
def hasTriple : List Char → Bool
  | [] => false
  | c :: rest => startsTriple (c :: rest) || hasTriple rest

/-- The characters before the first occurrence of the triple-backtick marker,
`none` when no marker occurs.  This is the lazy `(.*?)` of the pattern,
which stops at the first closing fence. -/
def takeUntilTriple : List Char → Option (List Char)
  | [] => none
  | c :: rest =>
    if startsTriple (c :: rest) then some []
    else (takeUntilTriple rest).map (fun g => c :: g)

/-- The suffix after the last newline of the list, `none` when the list has no
newline.  The greedy `\s*` followed by the literal `\n` commits to the last
newline of the whitespace run. -/
def suffixAfterLastNewline : List Char → Option (List Char)
  | [] => none
  | c :: rest =>
    match suffixAfterLastNewline rest with
    | some t => some t
    | none => if c = '\n' then some rest else none

/-- One attempted match of the pattern at the head of the list: the fence
marker, the maximal alphanumeric language tag, the greedy whitespace run whose
last newline ends the opening fence, and the lazy group running to the first
closing marker.  Returns the group on success. -/
def tryMatch (cs : List Char) : Option (List Char) :=
  if startsTriple cs then
    (suffixAfterLastNewline (((cs.drop 3).dropWhile isAlnumChar).takeWhile isPySpace)).bind
      (fun tail => takeUntilTriple (tail ++ ((cs.drop 3).dropWhile isAlnumChar).dropWhile isPySpace))
  else none

/-- `re.search`: the match attempt at the leftmost position that succeeds. -/
def searchFence : List Char → Option (List Char)
  | [] => none
  | c :: rest =>
    match tryMatch (c :: rest) with
    | some g => some g
    | none => searchFence rest

/-- Remove trailing Python whitespace. -/
def dropTrailingWs (l : List Char) : List Char :=
  (l.reverse.dropWhile isPySpace).reverse

/-- Python's `str.strip()`: remove leading and trailing whitespace. -/
def pyStrip (l : List Char) : List Char :=
  dropTrailingWs (l.dropWhile isPySpace)

/-- The character substitution of `code.replace(squote, dquote)`. -/
def replChar (c : Char) : Char := if c = squote then '"' else c

/-- Replace every single quote by a double quote. -/
def replaceQuotes (l : List Char) : List Char := l.map replChar

/-- The stripped candidate text: the first fenced block's group when the
pattern matches, the whole input otherwise. -/
def extract_code_list (cs : List Char) : List Char :=
  match searchFence cs with
  | some g => pyStrip g
  | none => pyStrip cs

/-- src/PureCheck.py lines 102–116: extract the first fenced code block (or
fall back to the whole input), strip it, and normalize quotes. -/
def extract_code (content : String) : String :=
  String.mk (replaceQuotes (extract_code_list content.data))

/-- The interior up to, and the suffix after, the first closing marker. -/
def specTakeUntilTriple : List Char → Option (List Char × List Char)
  | [] => none
  | c :: rest =>
    if startsTriple (c :: rest) then some ([], (c :: rest).drop 3)
    else (specTakeUntilTriple rest).map (fun p => (c :: p.1, p.2))

/-- Modelled from the spec: the spec's own notion of a fenced code block
("a region opened by a triple-backtick marker, optionally followed by a
language name, and closed by a triple-backtick marker, possibly spanning
multiple lines") — no newline is required after the opening marker, unlike
the code's regular expression.  Returns the interior of the block at the head
of the list together with the suffix after the closing marker. -/
def specBlockAtHead (cs : List Char) : Option (List Char × List Char) :=
  if startsTriple cs then specTakeUntilTriple ((cs.drop 3).dropWhile isAlnumChar)
  else none

/-- Modelled from the spec: the first (leftmost) fenced code block in the
spec's sense, with the text after its closing marker. -/
def specFindBlock : List Char → Option (List Char × List Char)
  | [] => none
  | c :: rest =>
    match specBlockAtHead (c :: rest) with
    | some p => some p
    | none => specFindBlock rest

/-- Does the string contain a fenced code block in the spec's sense? -/
def specContainsBlock (s : String) : Bool := (specFindBlock s.data).isSome

/-- The interior content of the first fenced code block in the spec's sense. -/
def specFirstBlockInterior (s : String) : Option (List Char) :=
  (specFindBlock s.data).map Prod.fst

/-- Does the string contain two or more fenced code blocks in the spec's
sense (a second block beginning after the first block's closing marker)? -/
def specContainsTwoBlocks (s : String) : Bool :=
  match specFindBlock s.data with
  | some (_, rest) => (specFindBlock rest).isSome
  | none => false

/-- The base64 alphabet, in index order. -/
def b64Alphabet : List Char :=
  ("ABCDEFGHIJKLMNOPQRSTUVWXYZabcdefghijklmnopqrstuvwxyz0123456789+/").data

/-- The base64 digit for a sextet. -/
def b64Char (n : Nat) : Char := b64Alphabet.getD n '='

/-- The sextet for a base64 digit. -/
def b64CharIndex (c : Char) : Nat := b64Alphabet.indexOf c

/-- Standard base64 of a byte list (the encoding `base64.b64encode`
performs), with `=` padding. -/
def b64Encode : List Nat → List Char
  | [] => []
  | [a] => [b64Char (a / 4), b64Char (a % 4 * 16), '=', '=']
  | [a, b] => [b64Char (a / 4), b64Char (a % 4 * 16 + b / 16), b64Char (b % 16 * 4), '=']
  | a :: b :: c :: rest =>
    b64Char (a / 4) :: b64Char (a % 4 * 16 + b / 16) ::
    b64Char (b % 16 * 4 + c / 64) :: b64Char (c % 64) :: b64Encode rest

/-- Standard base64 decoding of a padded digit string back to bytes. -/
def b64Decode : List Char → List Nat
  | c1 :: c2 :: c3 :: c4 :: rest =>
    let d1 := b64CharIndex c1
    let d2 := b64CharIndex c2
    let d3 := b64CharIndex c3
    let d4 := b64CharIndex c4
    if c3 = '=' then [d1 * 4 + d2 / 16]
    else if c4 = '=' then [d1 * 4 + d2 / 16, d2 % 16 * 16 + d3 / 4]
    else (d1 * 4 + d2 / 16) :: (d2 % 16 * 16 + d3 / 4) :: (d3 % 4 * 64 + d4) :: b64Decode rest
  | _ => []

/-- The MIME type chosen by the encoder: the guess when there is one, the
generic binary type otherwise (src/PureCheck.py lines 22–24). -/
def mimeTypeOf (guess : String → Option String) (image_path : String) : String :=
  match guess image_path with
  | some m => m
  | none => "application/octet-stream"

/-- src/PureCheck.py lines 15–29: encode a local image into a base64 data
URL.  The MIME-guessing function (`mimetypes.guess_type`, outside this
repository) is a parameter, and the file's bytes are passed explicitly. -/
def local_image_to_data_url (guess : String → Option String)
    (image_path : String) (contents : List Nat) : String :=
  "data:" ++ mimeTypeOf guess image_path ++ ";base64," ++ String.mk (b64Encode contents)

/-- One typed part of a user message's content list. -/
inductive ContentPart where
  | text (s : String)
  | image_url (url : String)
deriving DecidableEq

/-- A message's content: a plain string (the system message) or a part list. -/
inductive MessageContent where
  | str (s : String)
  | parts (l : List ContentPart)
deriving DecidableEq

/-- A chat message: a role plus content. -/
structure ChatMessage where
  role : String
  content : MessageContent
deriving DecidableEq

/-- The request value `chat.completions.create` is called with. -/
structure ChatRequest where
  model : String
  messages : List ChatMessage
  max_tokens : Nat
deriving DecidableEq

/-- The client wrapper; the only state `analyze_image` reads is the
deployment name. -/
structure AzureOpenAIClient where
  deployment_name : String

/-- src/PureCheck.py lines 48–100: the request built by `analyze_image`. -/
def AzureOpenAIClient.analyze_image (self : AzureOpenAIClient)
    (image_data_url system_message user_message : String)
    (clean_image_url_example dirty_image_url_example : String)
    (max_tokens : Nat) : ChatRequest :=
  { model := self.deployment_name
    messages :=
      [ { role := "system", content := MessageContent.str system_message }
      , { role := "user"
        , content := MessageContent.parts
            [ ContentPart.text ("This is a clean image example:")
            , ContentPart.image_url clean_image_url_example ] }
      , { role := "user"
        , content := MessageContent.parts
            [ ContentPart.text ("This is a dirty image example:")
            , ContentPart.image_url dirty_image_url_example ] }
      , { role := "user"
        , content := MessageContent.parts
            [ ContentPart.text user_message
            , ContentPart.image_url image_data_url ] } ]
    max_tokens := max_tokens }

/-- The opening-brace character (code point 123). -/
def lbrace : Char := Char.ofNat 123

/-- The closing-brace character (code point 125). -/
def rbrace : Char := Char.ofNat 125

/-- JSON whitespace (RFC 8259): space, tab, line feed, carriage return. -/
def isJsonWs (c : Char) : Bool := c = ' ' || c = '\t' || c = '\n' || c = '\r'

/-- Skip JSON whitespace. -/
def skipWs (l : List Char) : List Char := l.dropWhile isJsonWs

/-- A hexadecimal digit. -/
def isHexDigitChar (c : Char) : Bool :=
  ('0' ≤ c && c ≤ '9') || ('a' ≤ c && c ≤ 'f') || ('A' ≤ c && c ≤ 'F')

/-- A decimal digit. -/
def isDigitChar (c : Char) : Bool := '0' ≤ c && c ≤ '9'

/-- After the opening double quote: consume the rest of a JSON string
(escapes allowed, raw control characters rejected). -/
def parseStringRest : List Char → Option (List Char)
  | [] => none
  | c :: rest =>
    if c = '"' then some rest
    else if c = '\\' then
      match rest with
      | [] => none
      | e :: rest2 =>
        if e = 'u' then
          match rest2 with
          | h1 :: h2 :: h3 :: h4 :: rest3 =>
            if isHexDigitChar h1 && isHexDigitChar h2 && isHexDigitChar h3 && isHexDigitChar h4 then
              parseStringRest rest3
            else none
          | _ => none
        else if e = '"' || e = '\\' || e = '/' || e = 'b' || e = 'f' || e = 'n' || e = 'r' || e = 't' then
          parseStringRest rest2
        else none
    else if c.toNat < 32 then none
    else parseStringRest rest

/-- The integer part of a JSON number: `0`, or a nonzero digit followed by
digits. -/
def parseIntPart : List Char → Option (List Char)
  | [] => none
  | c :: rest =>
    if c = '0' then some rest
    else if '1' ≤ c && c ≤ '9' then some (rest.dropWhile isDigitChar)
    else none

/-- The optional fraction part: a dot followed by one or more digits. -/
def parseFracPart : List Char → Option (List Char)
  | '.' :: c :: rest => if isDigitChar c then some (rest.dropWhile isDigitChar) else none
  | '.' :: [] => none
  | l => some l

/-- The optional exponent part. -/
def parseExpPart (l : List Char) : Option (List Char) :=
  match l with
  | e :: rest =>
    if e = 'e' || e = 'E' then
      let rest2 := match rest with
        | s :: r => if s = '+' || s = '-' then r else s :: r
        | [] => rest
      match rest2 with
      | c :: r2 => if isDigitChar c then some (r2.dropWhile isDigitChar) else none
      | [] => none
    else some l
  | [] => some l

/-- A JSON number, plus the `Infinity`/`-Infinity`/`NaN` constants that
Python's parser accepts by default. -/
def parseNumber (l : List Char) : Option (List Char) :=
  match l with
  | 'N' :: 'a' :: 'N' :: r => some r
  | 'I' :: 'n' :: 'f' :: 'i' :: 'n' :: 'i' :: 't' :: 'y' :: r => some r
  | '-' :: 'I' :: 'n' :: 'f' :: 'i' :: 'n' :: 'i' :: 't' :: 'y' :: r => some r
  | _ =>
    let l1 := match l with
      | c :: rest => if c = '-' then rest else c :: rest
      | [] => l
    match parseIntPart l1 with
    | some r1 =>
      match parseFracPart r1 with
      | some r2 => parseExpPart r2
      | none => none
    | none => none

mutual

/-- Parse one JSON value, returning the remaining input; the fuel bounds the
recursion depth. -/
def parseValue : Nat → List Char → Option (List Char)
  | 0, _ => none
  | Nat.succ fuel, l =>
    match skipWs l with
    | [] => none
    | c :: rest =>
      if c = lbrace then parseObjectBody fuel rest
      else if c = '[' then parseArrayBody fuel rest
      else if c = '"' then parseStringRest rest
      else
        match c :: rest with
        | 't' :: 'r' :: 'u' :: 'e' :: r => some r
        | 'f' :: 'a' :: 'l' :: 's' :: 'e' :: r => some r
        | 'n' :: 'u' :: 'l' :: 'l' :: r => some r
        | other => parseNumber other

/-- After an opening brace: an empty object or the first member. -/
def parseObjectBody : Nat → List Char → Option (List Char)
  | 0, _ => none
  | Nat.succ fuel, l =>
    match skipWs l with
    | [] => none
    | c :: rest =>
      if c = rbrace then some rest
      else if c = '"' then
        match parseStringRest rest with
        | some afterKey => parseMemberValue fuel afterKey
        | none => none
      else none

/-- After a member key: the colon, the value, then the object tail. -/
def parseMemberValue : Nat → List Char → Option (List Char)
  | 0, _ => none
  | Nat.succ fuel, l =>
    match skipWs l with
    | ':' :: rest =>
      match parseValue fuel rest with
      | some afterVal => parseObjectTail fuel afterVal
      | none => none
    | _ => none

/-- After a member: a closing brace or a comma and the next member. -/
def parseObjectTail : Nat → List Char → Option (List Char)
  | 0, _ => none
  | Nat.succ fuel, l =>
    match skipWs l with
    | [] => none
    | c :: rest =>
      if c = rbrace then some rest
      else if c = ',' then
        match skipWs rest with
        | k :: rest2 =>
          if k = '"' then
            match parseStringRest rest2 with
            | some afterKey => parseMemberValue fuel afterKey
            | none => none
          else none
        | [] => none
      else none

/-- After an opening bracket: an empty array or the first element. -/
def parseArrayBody : Nat → List Char → Option (List Char)
  | 0, _ => none
  | Nat.succ fuel, l =>
    match skipWs l with
    | [] => none
    | c :: rest =>
      if c = ']' then some rest
      else
        match parseValue fuel (c :: rest) with
        | some afterVal => parseArrayTail fuel afterVal
        | none => none

/-- After an element: a closing bracket or a comma and the next element. -/
def parseArrayTail : Nat → List Char → Option (List Char)
  | 0, _ => none
  | Nat.succ fuel, l =>
    match skipWs l with
    | [] => none
    | c :: rest =>
      if c = ']' then some rest
      else if c = ',' then
        match parseValue fuel rest with
        | some afterVal => parseArrayTail fuel afterVal
        | none => none
      else none

end

/-- Modelled from the spec: acceptance of the final text by the strict JSON
parse step (`json.loads` from the Python standard library, outside this
repository): an RFC 8259 JSON value — with the `NaN`/`Infinity` extensions
Python accepts by default — surrounded only by whitespace. -/
def jsonValid (s : String) : Bool :=
  match parseValue (s.data.length + 1) s.data with
  | some rest => (skipWs rest).isEmpty
  | none => false

/-- The observable outcome of the reporting branch of `main`: a verdict, a
reported parse failure carrying the offending text, or no output at all. -/
inductive MainOutcome where
  | verdict (content : String)
  | parseError (offending : String)
  | silent
deriving DecidableEq

/-- src/PureCheck.py lines 172–183: the reporting branch of `main` as a
function of the response's candidate list (`none` models a response without
a `choices` attribute). -/
def mainReport (choices : Option (List String)) : MainOutcome :=
  match choices with
  | some (first :: _) =>
    let content := extract_code first
    if jsonValid content then MainOutcome.verdict content else MainOutcome.parseError content
  | some [] => MainOutcome.silent
  | none => MainOutcome.silent

/-- Every base64 digit decodes back to its sextet. -/
theorem b64CharIndex_b64Char : ∀ n < 64, b64CharIndex (b64Char n) = n := by decide

/-- Base64 digits are never the padding character. -/
theorem b64Char_ne_pad : ∀ n < 64, b64Char n ≠ '=' := by decide

/-- Decoding inverts encoding on byte lists. -/
theorem b64_roundtrip : ∀ (l : List Nat), (∀ b ∈ l, b < 256) → b64Decode (b64Encode l) = l
  | [], _ => rfl
  | [a], h => by
    have ha : a < 256 := h a (by simp)
    have i1 : b64CharIndex (b64Char (a / 4)) = a / 4 := b64CharIndex_b64Char _ (by omega)
    have i2 : b64CharIndex (b64Char (a % 4 * 16)) = a % 4 * 16 := b64CharIndex_b64Char _ (by omega)
    simp only [b64Encode, b64Decode, i1, i2]
    simp
    omega
  | [a, b], h => by
    have ha : a < 256 := h a (by simp)
    have hb : b < 256 := h b (by simp)
    have e3ne : b64Char (b % 16 * 4) ≠ '=' := b64Char_ne_pad _ (by omega)
    have i1 : b64CharIndex (b64Char (a / 4)) = a / 4 := b64CharIndex_b64Char _ (by omega)
    have i2 : b64CharIndex (b64Char (a % 4 * 16 + b / 16)) = a % 4 * 16 + b / 16 :=
      b64CharIndex_b64Char _ (by omega)
    have i3 : b64CharIndex (b64Char (b % 16 * 4)) = b % 16 * 4 := b64CharIndex_b64Char _ (by omega)
    simp only [b64Encode, b64Decode, if_neg e3ne, i1, i2, i3]
    simp
    omega
  | a :: b :: c :: d :: rest, h => by
    have ha : a < 256 := h a (by simp)
    have hb : b < 256 := h b (by simp)
    have hc : c < 256 := h c (by simp)
    have htail : b64Decode (b64Encode (d :: rest)) = d :: rest :=
      b64_roundtrip (d :: rest)
        (fun x hx =>
          h x (List.mem_cons_of_mem a (List.mem_cons_of_mem b (List.mem_cons_of_mem c hx))))
    have e3ne : b64Char (b % 16 * 4 + c / 64) ≠ '=' := b64Char_ne_pad _ (by omega)
    have e4ne : b64Char (c % 64) ≠ '=' := b64Char_ne_pad _ (by omega)
    have i1 : b64CharIndex (b64Char (a / 4)) = a / 4 := b64CharIndex_b64Char _ (by omega)
    have i2 : b64CharIndex (b64Char (a % 4 * 16 + b / 16)) = a % 4 * 16 + b / 16 :=
      b64CharIndex_b64Char _ (by omega)
    have i3 : b64CharIndex (b64Char (b % 16 * 4 + c / 64)) = b % 16 * 4 + c / 64 :=
      b64CharIndex_b64Char _ (by omega)
    have i4 : b64CharIndex (b64Char (c % 64)) = c % 64 := b64CharIndex_b64Char _ (by omega)
    have henc : b64Encode (a :: b :: c :: d :: rest) =
        b64Char (a / 4) :: b64Char (a % 4 * 16 + b / 16) ::
        b64Char (b % 16 * 4 + c / 64) :: b64Char (c % 64) :: b64Encode (d :: rest) := rfl
    rw [henc]
    simp only [b64Decode, if_neg e3ne, if_neg e4ne, i1, i2, i3, i4]
    have g1 : a / 4 * 4 + (a % 4 * 16 + b / 16) / 16 = a := by omega
    have g2 : (a % 4 * 16 + b / 16) % 16 * 16 + (b % 16 * 4 + c / 64) / 4 = b := by omega
    have g3 : (b % 16 * 4 + c / 64) % 4 * 64 + c % 64 = c := by omega
    rw [g1, g2, g3, htail]
  | [a, b, c], h => by
    have ha : a < 256 := h a (by simp)
    have hb : b < 256 := h b (by simp)
    have hc : c < 256 := h c (by simp)
    have e3ne : b64Char (b % 16 * 4 + c / 64) ≠ '=' := b64Char_ne_pad _ (by omega)
    have e4ne : b64Char (c % 64) ≠ '=' := b64Char_ne_pad _ (by omega)
    have i1 : b64CharIndex (b64Char (a / 4)) = a / 4 := b64CharIndex_b64Char _ (by omega)
    have i2 : b64CharIndex (b64Char (a % 4 * 16 + b / 16)) = a % 4 * 16 + b / 16 :=
      b64CharIndex_b64Char _ (by omega)
    have i3 : b64CharIndex (b64Char (b % 16 * 4 + c / 64)) = b % 16 * 4 + c / 64 :=
      b64CharIndex_b64Char _ (by omega)
    have i4 : b64CharIndex (b64Char (c % 64)) = c % 64 := b64CharIndex_b64Char _ (by omega)
    simp only [b64Encode, b64Decode, if_neg e3ne, if_neg e4ne, i1, i2, i3, i4]
    have g1 : a / 4 * 4 + (a % 4 * 16 + b / 16) / 16 = a := by omega
    have g2 : (a % 4 * 16 + b / 16) % 16 * 16 + (b % 16 * 4 + c / 64) / 4 = b := by omega
    have g3 : (b % 16 * 4 + c / 64) % 4 * 64 + c % 64 = c := by omega
    rw [g1, g2, g3]

/-- Claim C2: on the fenced, json-tagged, single-quoted input, `extract_code`
strips the fence, trims the content, and converts every single quote to a
double quote. -/
theorem C2_fenced_single_quote_example :
    extract_code ("```json\n\x7b'is_clean': false, 'description': 'stain'\x7d\n```") =
      ("\x7b\"is_clean\": false, \"description\": \"stain\"\x7d") := by decide

/-- Claim C5: a valid strict-JSON input whose string value legitimately
contains an apostrophe is changed by the quote substitution, and the result
is no longer valid strict JSON. -/
theorem C5_quote_substitution_corrupts :
    jsonValid ("\x7b\"is_clean\": true, \"description\": \"the part's surface\"\x7d") = true ∧
    extract_code ("\x7b\"is_clean\": true, \"description\": \"the part's surface\"\x7d") ≠
      ("\x7b\"is_clean\": true, \"description\": \"the part's surface\"\x7d") ∧
    jsonValid (extract_code ("\x7b\"is_clean\": true, \"description\": \"the part's surface\"\x7d")) =
      false :=
  ⟨by decide, by decide, by decide⟩

/-- Claim C6: when the extracted text is not valid strict JSON, the
orchestrator's reporting branch produces the parse-failure report carrying
exactly the offending extracted text — not a verdict, and not an uncaught
exception. -/
theorem C6_parse_failure_reported (content : String) (rest : List String)
    (h : jsonValid (extract_code content) = false) :
    mainReport (some (content :: rest)) = MainOutcome.parseError (extract_code content) := by
  simp only [mainReport, h]
  rfl

/-- Witness for C6 at the spec's concrete failing text. -/
theorem C6_witness :
    mainReport (some [("not json at all")]) = MainOutcome.parseError ("not json at all") :=
  C6_parse_failure_reported ("not json at all") [] (by decide)

/-- Claim C7: for every combination of inputs, the built request's message
list is exactly: system instructions; clean exemplar text+image; dirty
exemplar text+image; instruction text + subject image. -/
theorem C7_message_order (self : AzureOpenAIClient)
    (image_data_url system_message user_message : String)
    (clean_image_url_example dirty_image_url_example : String) (max_tokens : Nat) :
    (self.analyze_image image_data_url system_message user_message
        clean_image_url_example dirty_image_url_example max_tokens).messages =
      [ { role := "system", content := MessageContent.str system_message }
      , { role := "user"
        , content := MessageContent.parts
            [ ContentPart.text ("This is a clean image example:")
            , ContentPart.image_url clean_image_url_example ] }
      , { role := "user"
        , content := MessageContent.parts
            [ ContentPart.text ("This is a dirty image example:")
            , ContentPart.image_url dirty_image_url_example ] }
      , { role := "user"
        , content := MessageContent.parts
            [ ContentPart.text user_message
            , ContentPart.image_url image_data_url ] } ] := rfl

/-- Claim C8: when MIME inference yields nothing, the encoder still produces
a data URL, with the generic binary MIME type. -/
theorem C8_octet_stream_fallback (guess : String → Option String) (image_path : String)
    (contents : List Nat) (h : guess image_path = none) :
    local_image_to_data_url guess image_path contents =
      "data:application/octet-stream;base64," ++ String.mk (b64Encode contents) := by
  unfold local_image_to_data_url mimeTypeOf
  rw [h]
  show "data:" ++ "application/octet-stream" ++ ";base64," ++ String.mk (b64Encode contents) =
    "data:application/octet-stream;base64," ++ String.mk (b64Encode contents)
  have e : ("data:" ++ "application/octet-stream" ++ ";base64," : String) =
      ("data:application/octet-stream;base64,") := by decide
  rw [e]

/-- Witness for C8 at a concrete unmapped path. -/
theorem C8_witness :
    local_image_to_data_url (fun _ => none) ("img.weird") [0, 1, 2] =
      ("data:application/octet-stream;base64,AAEC") :=
  (C8_octet_stream_fallback (fun _ => none) ("img.weird") [0, 1, 2] rfl).trans (by decide)

/-- Claim C9: the data URL is the MIME header followed by the base64 payload,
and decoding that payload yields the original bytes. -/
theorem C9_data_url_roundtrip (guess : String → Option String) (image_path : String)
    (contents : List Nat) (h : ∀ b ∈ contents, b < 256) :
    local_image_to_data_url guess image_path contents =
      "data:" ++ mimeTypeOf guess image_path ++ ";base64," ++ String.mk (b64Encode contents) ∧
    b64Decode (b64Encode contents) = contents :=
  ⟨rfl, b64_roundtrip contents h⟩

/-- Witness for C9 on the first bytes of a PNG header. -/
theorem C9_witness : b64Decode (b64Encode [137, 80, 78, 71]) = [137, 80, 78, 71] :=
  (C9_data_url_roundtrip (fun _ => none) ("images/img1.JPEG") [137, 80, 78, 71] (by decide)).2

/-- Whitespace characters are not in the `[A-Za-z0-9]` class. -/
theorem isPySpace_not_alnum (c : Char) (h : isPySpace c = true) : isAlnumChar c = false := by
  simp only [isPySpace, Bool.or_eq_true, decide_eq_true_eq] at h
  casesm* _ ∨ _ <;> subst_vars <;> decide

/-- The newline is not alphanumeric. -/
theorem isAlnumChar_newline : isAlnumChar '\n' = false := by decide

/-- The newline is Python whitespace. -/
theorem isPySpace_newline : isPySpace '\n' = true := by decide

/-- The backtick is not Python whitespace. -/
theorem isPySpace_btick : isPySpace btick = false := by decide

/-- Dropping from an all-satisfying prefix continues into the suffix. -/
theorem dropWhile_append_all {α} (p : α → Bool) :
    ∀ (l m : List α), l.all p = true → (l ++ m).dropWhile p = m.dropWhile p
  | [], _, _ => rfl
  | a :: l, m, h => by
    simp only [List.all_cons, Bool.and_eq_true] at h
    rw [List.cons_append, List.dropWhile_cons_of_pos h.1]
    exact dropWhile_append_all p l m h.2

/-- Taking from an all-satisfying prefix continues into the suffix. -/
theorem takeWhile_append_all {α} (p : α → Bool) :
    ∀ (l m : List α), l.all p = true → (l ++ m).takeWhile p = l ++ m.takeWhile p
  | [], _, _ => rfl
  | a :: l, m, h => by
    simp only [List.all_cons, Bool.and_eq_true] at h
    rw [List.cons_append, List.takeWhile_cons_of_pos h.1, takeWhile_append_all p l m h.2]
    rfl

/-- A failing element after the prefix stops `takeWhile` at the prefix. -/
theorem takeWhile_append_stop {α} (p : α → Bool) (c : α) (hc : p c = false) :
    ∀ (l m : List α), (l ++ c :: m).takeWhile p = l.takeWhile p
  | [], m => by
    rw [List.nil_append]
    exact List.takeWhile_cons_of_neg (by simp [hc])
  | a :: l, m => by
    by_cases hpa : p a = true
    · rw [List.cons_append, List.takeWhile_cons_of_pos hpa, List.takeWhile_cons_of_pos hpa,
        takeWhile_append_stop p c hc l m]
    · rw [List.cons_append, List.takeWhile_cons_of_neg hpa, List.takeWhile_cons_of_neg hpa]

/-- A failing element after the prefix stops `dropWhile` at the prefix. -/
theorem dropWhile_append_stop {α} (p : α → Bool) (c : α) (hc : p c = false) :
    ∀ (l m : List α), (l ++ c :: m).dropWhile p = l.dropWhile p ++ c :: m
  | [], m => by
    rw [List.nil_append]
    rw [List.dropWhile_cons_of_neg (by simp [hc])]
    rfl
  | a :: l, m => by
    by_cases hpa : p a = true
    · rw [List.cons_append, List.dropWhile_cons_of_pos hpa, List.dropWhile_cons_of_pos hpa,
        dropWhile_append_stop p c hc l m]
    · rw [List.cons_append, List.dropWhile_cons_of_neg hpa, List.dropWhile_cons_of_neg hpa]
      rfl

/-- The prefix taken by `takeWhile` satisfies the predicate throughout. -/
theorem takeWhile_all {α} (p : α → Bool) : ∀ l : List α, (l.takeWhile p).all p = true
  | [] => rfl
  | a :: l => by
    by_cases hpa : p a = true
    · rw [List.takeWhile_cons_of_pos hpa]
      simp [List.all_cons, hpa, takeWhile_all p l]
    · rw [List.takeWhile_cons_of_neg hpa]
      rfl

/-- `dropWhile` is idempotent. -/
theorem dropWhile_idem {α} (p : α → Bool) : ∀ l : List α, (l.dropWhile p).dropWhile p = l.dropWhile p
  | [] => rfl
  | a :: l => by
    by_cases hpa : p a = true
    · rw [List.dropWhile_cons_of_pos hpa]
      exact dropWhile_idem p l
    · rw [List.dropWhile_cons_of_neg hpa, List.dropWhile_cons_of_neg hpa]

/-- `dropWhile` never lengthens a list. -/
theorem length_dropWhile_le' {α} (p : α → Bool) : ∀ l : List α, (l.dropWhile p).length ≤ l.length
  | [] => Nat.le_refl _
  | a :: l => by
    by_cases hpa : p a = true
    · rw [List.dropWhile_cons_of_pos hpa]
      exact Nat.le_trans (length_dropWhile_le' p l) (by simp)
    · rw [List.dropWhile_cons_of_neg hpa]

/-- A list on which the fence pattern can start is three backticks and a
remainder. -/
theorem startsTriple_elim : ∀ {l : List Char}, startsTriple l = true →
    ∃ r, l = btick :: btick :: btick :: r := by
  intro l h
  match l with
  | [] => simp [startsTriple] at h
  | [a] => simp [startsTriple] at h
  | [a, b] => simp [startsTriple] at h
  | a :: b :: c :: r =>
    simp only [startsTriple, Bool.and_eq_true, decide_eq_true_eq] at h
    obtain ⟨⟨rfl, rfl⟩, rfl⟩ := h
    exact ⟨r, rfl⟩

/-- Three backticks start the fence pattern. -/
theorem startsTriple_cons3 (r : List Char) : startsTriple (btick :: btick :: btick :: r) = true := by
  simp [startsTriple]

/-- Starting the fence pattern is preserved by appending on the right. -/
theorem startsTriple_append {l : List Char} (m : List Char) (h : startsTriple l = true) :
    startsTriple (l ++ m) = true := by
  obtain ⟨r, rfl⟩ := startsTriple_elim h
  rw [List.cons_append, List.cons_append, List.cons_append]
  exact startsTriple_cons3 _

/-- Unfolding the absence of a fence marker at a cons cell. -/
theorem hasTriple_cons_elim {c : Char} {l : List Char} (h : hasTriple (c :: l) = false) :
    startsTriple (c :: l) = false ∧ hasTriple l = false := by
  rw [show hasTriple (c :: l) = (startsTriple (c :: l) || hasTriple l) from rfl] at h
  exact Bool.or_eq_false_iff.mp h

/-- Absence of the fence marker passes to the right part of an append. -/
theorem hasTriple_append_right : ∀ {l m : List Char}, hasTriple (l ++ m) = false → hasTriple m = false
  | [], _, h => h
  | c :: l, m, h => by
    rw [List.cons_append] at h
    exact hasTriple_append_right (hasTriple_cons_elim h).2

/-- Absence of the fence marker passes to the left part of an append. -/
theorem hasTriple_append_left : ∀ {l m : List Char}, hasTriple (l ++ m) = false → hasTriple l = false
  | [], _, _ => rfl
  | c :: l, m, h => by
    rw [List.cons_append] at h
    have h2 := hasTriple_cons_elim h
    rw [show hasTriple (c :: l) = (startsTriple (c :: l) || hasTriple l) from rfl]
    have hst : startsTriple (c :: l) = false := by
      cases hs : startsTriple (c :: l) with
      | false => rfl
      | true =>
        have := startsTriple_append m hs
        rw [List.cons_append] at this
        rw [this] at h2
        exact absurd h2.1 (by simp)
    rw [hst, hasTriple_append_left h2.2]
    rfl

/-- When a nonempty block of text is free of the fence marker (even jointly
with the first two backticks of a following marker), the pattern cannot start
on it. -/
theorem noStraddle : ∀ (l X : List Char), l ≠ [] → hasTriple (l ++ [btick, btick]) = false →
    startsTriple (l ++ btick :: btick :: btick :: X) = false := by
  intro l X hne h
  cases hs : startsTriple (l ++ btick :: btick :: btick :: X) with
  | false => rfl
  | true =>
    exfalso
    match l, hne with
    | [c], _ =>
      rw [List.cons_append, List.nil_append] at hs
      simp only [startsTriple, Bool.and_eq_true, decide_eq_true_eq] at hs
      obtain ⟨⟨rfl, -⟩, -⟩ := hs
      exact absurd h (by decide)
    | [c, d], _ =>
      rw [List.cons_append, List.cons_append, List.nil_append] at hs
      simp only [startsTriple, Bool.and_eq_true, decide_eq_true_eq] at hs
      obtain ⟨⟨rfl, rfl⟩, -⟩ := hs
      exact absurd h (by decide)
    | c :: d :: e :: l', _ =>
      rw [List.cons_append, List.cons_append, List.cons_append] at hs
      simp only [startsTriple, Bool.and_eq_true, decide_eq_true_eq] at hs
      obtain ⟨⟨rfl, rfl⟩, rfl⟩ := hs
      rw [List.cons_append, List.cons_append, List.cons_append,
        show hasTriple (btick :: btick :: btick :: (l' ++ [btick, btick])) =
          (startsTriple (btick :: btick :: btick :: (l' ++ [btick, btick])) ||
            hasTriple (btick :: btick :: (l' ++ [btick, btick]))) from rfl,
        startsTriple_cons3] at h
      exact absurd h (by simp)

/-- The lazy group stops exactly at the closing fence when the content is
free of the marker (also jointly with the closing fence's first backticks). -/
theorem takeUntilTriple_closing : ∀ (l X : List Char), hasTriple (l ++ [btick, btick]) = false →
    takeUntilTriple (l ++ btick :: btick :: btick :: X) = some l
  | [], X, _ => by
    rw [List.nil_append, takeUntilTriple, if_pos (startsTriple_cons3 X)]
  | c :: l, X, h => by
    have hst := noStraddle (c :: l) X (by simp) h
    rw [List.cons_append] at hst
    rw [List.cons_append, takeUntilTriple, if_neg (by simp [hst]),
      takeUntilTriple_closing l X (hasTriple_cons_elim (by rwa [List.cons_append] at h)).2]
    rfl

/-- A successful lazy group is an initial segment ending at a fence marker. -/
theorem takeUntilTriple_decomp : ∀ {l g : List Char}, takeUntilTriple l = some g →
    ∃ r, l = g ++ btick :: btick :: btick :: r := by
  intro l
  induction l with
  | nil => intro g h; simp [takeUntilTriple] at h
  | cons c rest ih =>
    intro g h
    rw [takeUntilTriple] at h
    by_cases hst : startsTriple (c :: rest) = true
    · rw [if_pos hst] at h
      obtain ⟨r, hr⟩ := startsTriple_elim hst
      refine ⟨r, ?_⟩
      simp only [Option.some.injEq] at h
      rw [← h, List.nil_append, hr]
    · rw [if_neg hst] at h
      cases htu : takeUntilTriple rest with
      | none => rw [htu] at h; simp at h
      | some g' =>
        rw [htu] at h
        simp only [Option.map_some', Option.some.injEq] at h
        obtain ⟨r, hr⟩ := ih htu
        refine ⟨r, ?_⟩
        rw [← h, List.cons_append, hr]

/-- The lazy group never contains the fence marker. -/
theorem takeUntilTriple_noTriple : ∀ {l g : List Char}, takeUntilTriple l = some g →
    hasTriple g = false := by
  intro l
  induction l with
  | nil => intro g h; simp [takeUntilTriple] at h
  | cons c rest ih =>
    intro g h
    rw [takeUntilTriple] at h
    by_cases hst : startsTriple (c :: rest) = true
    · rw [if_pos hst] at h
      simp only [Option.some.injEq] at h
      rw [← h]
      rfl
    · rw [if_neg hst] at h
      cases htu : takeUntilTriple rest with
      | none => rw [htu] at h; simp at h
      | some g' =>
        rw [htu] at h
        simp only [Option.map_some', Option.some.injEq] at h
        rw [← h]
        rw [show hasTriple (c :: g') = (startsTriple (c :: g') || hasTriple g') from rfl]
        have hg' := ih htu
        have hstg : startsTriple (c :: g') = false := by
          cases hsg : startsTriple (c :: g') with
          | false => rfl
          | true =>
            exfalso
            obtain ⟨r3, hr3⟩ := startsTriple_elim hsg
            obtain ⟨r, hr⟩ := takeUntilTriple_decomp htu
            apply hst
            have hc : c = btick := by
              have := congrArg (fun x => x.headI) hr3
              simpa using this
            have hg2 : g' = btick :: btick :: r3 := by
              have := congrArg List.tail hr3
              simpa using this
            rw [hc, hr, hg2, List.cons_append, List.cons_append]
            exact startsTriple_cons3 _
        rw [hstg, hg']
        rfl

/-- Appending after a newline: the search for the last newline lands in the
suffix when it has one, and right after this newline otherwise. -/
theorem saln_append : ∀ (l1 l2 : List Char),
    suffixAfterLastNewline (l1 ++ '\n' :: l2) = some ((suffixAfterLastNewline l2).getD l2)
  | [], l2 => by
    rw [List.nil_append, suffixAfterLastNewline]
    cases h : suffixAfterLastNewline l2 with
    | some t => simp [h]
    | none => simp [h]
  | c :: l1, l2 => by
    rw [List.cons_append, suffixAfterLastNewline, saln_append l1 l2]

/-- A successful last-newline search decomposes the list at that newline. -/
theorem saln_decomp : ∀ {l t : List Char}, suffixAfterLastNewline l = some t →
    ∃ l1, l = l1 ++ '\n' :: t := by
  intro l
  induction l with
  | nil => intro t h; simp [suffixAfterLastNewline] at h
  | cons c rest ih =>
    intro t h
    rw [suffixAfterLastNewline] at h
    cases hs : suffixAfterLastNewline rest with
    | some t' =>
      rw [hs] at h
      simp only [Option.some.injEq] at h
      obtain ⟨l1, hl⟩ := ih (hs.trans (by rw [h]))
      exact ⟨c :: l1, by rw [List.cons_append, ← hl]⟩
    | none =>
      rw [hs] at h
      by_cases hc : c = '\n'
      · rw [if_pos hc] at h
        simp only [Option.some.injEq] at h
        exact ⟨[], by rw [List.nil_append, hc, h]⟩
      · rw [if_neg hc] at h
        simp at h

/-- The search succeeds at a cons cell on which the attempt succeeds. -/
theorem searchFence_cons_some {c : Char} {rest g : List Char} (h : tryMatch (c :: rest) = some g) :
    searchFence (c :: rest) = some g := by
  rw [searchFence, h]

/-- The search moves on past a cons cell on which the attempt fails. -/
theorem searchFence_cons_none {c : Char} {rest : List Char} (h : tryMatch (c :: rest) = none) :
    searchFence (c :: rest) = searchFence rest := by
  rw [searchFence, h]

/-- The candidate text when the pattern matches. -/
theorem extract_code_list_of_some {cs g : List Char} (h : searchFence cs = some g) :
    extract_code_list cs = pyStrip g := by
  rw [extract_code_list, h]

/-- The candidate text when the pattern does not match. -/
theorem extract_code_list_of_none {cs : List Char} (h : searchFence cs = none) :
    extract_code_list cs = pyStrip cs := by
  rw [extract_code_list, h]

/-- The match attempt at a well-formed fence: the group is the suffix of the
block content after the last newline of its leading whitespace, and stripping
the group strips the whole content. -/
theorem tryMatch_fence (tag ws inner post : List Char)
    (h2 : tag.all isAlnumChar = true) (h3 : ws.all isPySpace = true)
    (h4 : hasTriple (inner ++ [btick, btick]) = false) :
    ∃ g, tryMatch (btick :: btick :: btick ::
        (tag ++ (ws ++ '\n' :: (inner ++ btick :: btick :: btick :: post)))) = some g ∧
      pyStrip g = pyStrip inner := by
  have hAfterTag : (tag ++ (ws ++ '\n' :: (inner ++ btick :: btick :: btick :: post))).dropWhile
      isAlnumChar = ws ++ '\n' :: (inner ++ btick :: btick :: btick :: post) := by
    rw [dropWhile_append_all isAlnumChar tag _ h2]
    cases ws with
    | nil =>
      rw [List.nil_append]
      exact List.dropWhile_cons_of_neg (by simp [isAlnumChar_newline])
    | cons w ws' =>
      have hw : isPySpace w = true := by
        simp only [List.all_cons, Bool.and_eq_true] at h3
        exact h3.1
      rw [List.cons_append]
      exact List.dropWhile_cons_of_neg (by simp [isPySpace_not_alnum w hw])
  have hW : (ws ++ '\n' :: (inner ++ btick :: btick :: btick :: post)).takeWhile isPySpace =
      ws ++ '\n' :: inner.takeWhile isPySpace := by
    rw [takeWhile_append_all isPySpace ws _ h3, List.takeWhile_cons_of_pos isPySpace_newline,
      takeWhile_append_stop isPySpace btick isPySpace_btick inner (btick :: btick :: post)]
  have hAfterW : (ws ++ '\n' :: (inner ++ btick :: btick :: btick :: post)).dropWhile isPySpace =
      inner.dropWhile isPySpace ++ btick :: btick :: btick :: post := by
    rw [dropWhile_append_all isPySpace ws _ h3, List.dropWhile_cons_of_pos isPySpace_newline,
      dropWhile_append_stop isPySpace btick isPySpace_btick inner (btick :: btick :: post)]
  cases hs : suffixAfterLastNewline (inner.takeWhile isPySpace) with
  | none =>
    refine ⟨inner, ?_, rfl⟩
    unfold tryMatch
    rw [if_pos (startsTriple_cons3 _)]
    simp only [List.drop_succ_cons, List.drop_zero]
    rw [hAfterTag, hW, saln_append ws (inner.takeWhile isPySpace), hs, Option.getD_none,
      Option.some_bind, hAfterW, ← List.append_assoc, List.takeWhile_append_dropWhile]
    exact takeUntilTriple_closing inner post h4
  | some t =>
    obtain ⟨l1, hl1⟩ := saln_decomp hs
    have hinner : inner = l1 ++ '\n' :: (t ++ inner.dropWhile isPySpace) := by
      conv_lhs => rw [← List.takeWhile_append_dropWhile isPySpace inner]
      rw [hl1, List.append_assoc, List.cons_append]
    have hTI : hasTriple ((t ++ inner.dropWhile isPySpace) ++ [btick, btick]) = false := by
      have h4' := h4
      rw [hinner, List.append_assoc, List.cons_append] at h4'
      exact (hasTriple_cons_elim (hasTriple_append_right h4')).2
    refine ⟨t ++ inner.dropWhile isPySpace, ?_, ?_⟩
    · unfold tryMatch
      rw [if_pos (startsTriple_cons3 _)]
      simp only [List.drop_succ_cons, List.drop_zero]
      rw [hAfterTag, hW, saln_append ws (inner.takeWhile isPySpace), hs]
      simp only [Option.getD_some, Option.some_bind]
      rw [hAfterW, ← List.append_assoc]
      exact takeUntilTriple_closing (t ++ inner.dropWhile isPySpace) post hTI
    · have htall : t.all isPySpace = true := by
        have hta := takeWhile_all isPySpace inner
        rw [hl1] at hta
        simp only [List.all_append, List.all_cons, Bool.and_eq_true] at hta
        exact hta.2.2
      unfold pyStrip
      rw [dropWhile_append_all isPySpace t _ htall, dropWhile_idem isPySpace inner]

/-- The leftmost successful attempt: when no marker occurs before the fence,
the search lands on the fence. -/
theorem searchFence_at_first_marker : ∀ (pre R g : List Char), hasTriple (pre ++ [btick, btick]) = false →
    tryMatch (btick :: btick :: btick :: R) = some g →
    searchFence (pre ++ btick :: btick :: btick :: R) = some g
  | [], R, g, _, htm => by
    rw [List.nil_append]
    exact searchFence_cons_some htm
  | c :: pre, R, g, h, htm => by
    have hst := noStraddle (c :: pre) R (by simp) h
    rw [List.cons_append] at hst
    have htm0 : tryMatch (c :: (pre ++ btick :: btick :: btick :: R)) = none := by
      unfold tryMatch
      rw [if_neg (by simp [hst])]
    rw [List.cons_append, searchFence_cons_none htm0]
    exact searchFence_at_first_marker pre R g (hasTriple_cons_elim (by rwa [List.cons_append] at h)).2 htm

/-- Any successful attempt decomposes its input as a fenced block: marker,
alphanumeric tag, whitespace, newline, group, closing marker. -/
theorem tryMatch_sound {cs g : List Char} (h : tryMatch cs = some g) :
    ∃ tag ws inner post, cs = btick :: btick :: btick ::
        (tag ++ (ws ++ '\n' :: (inner ++ btick :: btick :: btick :: post))) ∧
      tag.all isAlnumChar = true ∧ ws.all isPySpace = true := by
  unfold tryMatch at h
  by_cases hst : startsTriple cs = true
  · rw [if_pos hst] at h
    obtain ⟨R, rfl⟩ := startsTriple_elim hst
    simp only [List.drop_succ_cons, List.drop_zero] at h
    cases hsal : suffixAfterLastNewline ((R.dropWhile isAlnumChar).takeWhile isPySpace) with
    | none => rw [hsal, Option.none_bind] at h; simp at h
    | some tail =>
      rw [hsal, Option.some_bind] at h
      obtain ⟨r, hr⟩ := takeUntilTriple_decomp h
      obtain ⟨l1, hl1⟩ := saln_decomp hsal
      have e1 : R.dropWhile isAlnumChar = l1 ++ '\n' :: (g ++ btick :: btick :: btick :: r) := by
        conv_lhs => rw [← List.takeWhile_append_dropWhile isPySpace (R.dropWhile isAlnumChar)]
        rw [hl1, List.append_assoc, List.cons_append, hr]
      have hRdecomp : R = R.takeWhile isAlnumChar ++
          (l1 ++ '\n' :: (g ++ btick :: btick :: btick :: r)) := by
        conv_lhs => rw [← List.takeWhile_append_dropWhile isAlnumChar R, e1]
      refine ⟨R.takeWhile isAlnumChar, l1, g, r, ?_, takeWhile_all isAlnumChar R, ?_⟩
      · nth_rewrite 1 [hRdecomp]
        rfl
      · have hta := takeWhile_all isPySpace (R.dropWhile isAlnumChar)
        rw [hl1] at hta
        simp only [List.all_append, Bool.and_eq_true] at hta
        exact hta.1
  · rw [if_neg hst] at h
    simp at h

/-- A successful search decomposes its input as text before a fenced block,
then the block. -/
theorem searchFence_sound : ∀ {cs g : List Char}, searchFence cs = some g →
    ∃ pre tag ws inner post, cs = pre ++ btick :: btick :: btick ::
        (tag ++ (ws ++ '\n' :: (inner ++ btick :: btick :: btick :: post))) ∧
      tag.all isAlnumChar = true ∧ ws.all isPySpace = true := by
  intro cs
  induction cs with
  | nil => intro g h; simp [searchFence] at h
  | cons c rest ih =>
    intro g h
    cases htm : tryMatch (c :: rest) with
    | some g' =>
      obtain ⟨tag, ws, inner, post, hcs, ha, hb⟩ := tryMatch_sound htm
      exact ⟨[], tag, ws, inner, post, by rw [List.nil_append, hcs], ha, hb⟩
    | none =>
      rw [searchFence_cons_none htm] at h
      obtain ⟨pre, tag, ws, inner, post, hcs, ha, hb⟩ := ih h
      exact ⟨c :: pre, tag, ws, inner, post, by rw [List.cons_append, hcs], ha, hb⟩

/-- The extraction at an input consisting of marker-free text, a well-formed
fenced block, and an arbitrary remainder: the result is the block content
stripped and quote-normalized, independent of everything around it. -/
theorem extract_code_fence (pre tag ws inner post : List Char)
    (h1 : hasTriple (pre ++ [btick, btick]) = false)
    (h2 : tag.all isAlnumChar = true)
    (h3 : ws.all isPySpace = true)
    (h4 : hasTriple (inner ++ [btick, btick]) = false) :
    extract_code (String.mk (pre ++ btick :: btick :: btick ::
        (tag ++ (ws ++ '\n' :: (inner ++ btick :: btick :: btick :: post)))))
      = String.mk (replaceQuotes (pyStrip inner)) := by
  obtain ⟨g, hg, hstrip⟩ := tryMatch_fence tag ws inner post h2 h3 h4
  have hsf := searchFence_at_first_marker pre _ g h1 hg
  show String.mk (replaceQuotes (extract_code_list (pre ++ btick :: btick :: btick ::
      (tag ++ (ws ++ '\n' :: (inner ++ btick :: btick :: btick :: post)))))) = _
  rw [extract_code_list_of_some hsf, hstrip]

/-- Claim C1 (amended): a fenced code block is found only when its opening
marker and optional alphanumeric language name are followed — possibly after
further whitespace — by a newline.  For every input containing such a block
(first at a marker-free prefix, content free of the marker), `extract_code`
returns the block's interior trimmed and quote-normalized; for every input
containing no such block, it returns the whole input trimmed and
quote-normalized. -/
theorem C1_extract_code_contract :
    (∀ pre tag ws inner post : List Char,
      hasTriple (pre ++ [btick, btick]) = false →
      tag.all isAlnumChar = true →
      ws.all isPySpace = true →
      hasTriple (inner ++ [btick, btick]) = false →
      extract_code (String.mk (pre ++ btick :: btick :: btick ::
          (tag ++ (ws ++ '\n' :: (inner ++ btick :: btick :: btick :: post)))))
        = String.mk (replaceQuotes (pyStrip inner))) ∧
    (∀ s : String,
      (∀ pre tag ws inner post : List Char,
        s.data = pre ++ btick :: btick :: btick ::
          (tag ++ (ws ++ '\n' :: (inner ++ btick :: btick :: btick :: post))) →
        tag.all isAlnumChar = true → ws.all isPySpace = true → False) →
      extract_code s = String.mk (replaceQuotes (pyStrip s.data))) := by
  constructor
  · exact extract_code_fence
  · intro s hno
    cases hsf : searchFence s.data with
    | some g =>
      exfalso
      obtain ⟨pre, tag, ws, inner, post, hcs, ha, hb⟩ := searchFence_sound hsf
      exact hno pre tag ws inner post hcs ha hb
    | none =>
      show String.mk (replaceQuotes (extract_code_list s.data)) = _
      rw [extract_code_list_of_none hsf]

/-- Witness for C1 at a concrete fenced input. -/
theorem C1_witness : extract_code ("```json\n\x7b\x7d```") = ("\x7b\x7d") := by
  have h := C1_extract_code_contract.1 [] ("json").data [] ("\x7b\x7d").data []
    (by decide) (by decide) (by decide) (by decide)
  have e1 : String.mk (([] : List Char) ++ btick :: btick :: btick ::
      (("json").data ++ (([] : List Char) ++ '\n' ::
        (("\x7b\x7d").data ++ btick :: btick :: btick :: ([] : List Char))))) =
      ("```json\n\x7b\x7d```") := by decide
  have e2 : String.mk (replaceQuotes (pyStrip ("\x7b\x7d").data)) = ("\x7b\x7d") := by decide
  rw [e1, e2] at h
  exact h

/-- Counterexample to claim C1 as stated: the input consisting of one
single-line fenced code block in the spec's sense (no newline after the
opening marker).  The spec-notion first block exists and its trimmed
interior is one word, but `extract_code` returns the whole input, fences
included. -/
theorem C1_counterexample :
    specContainsBlock ("``` hello ```") = true ∧
    specFirstBlockInterior ("``` hello ```") = some ((" hello ").data) ∧
    String.mk (replaceQuotes (pyStrip ((" hello ").data))) = ("hello") ∧
    extract_code ("``` hello ```") = ("``` hello ```") ∧
    ("``` hello ```" : String) ≠ ("hello") :=
  ⟨by decide, by decide, by decide, by decide, by decide⟩

/-- Claim C3 (amended): for blocks in the code's sense (mandatory newline
after the opening marker and its tag), the result is determined solely by the
first block's content: two inputs whose first blocks have the same interior —
whatever precedes them and whatever follows their closing fences, including
further fenced blocks — extract to the same string. -/
theorem C3_first_block_determines
    (pre tag ws inner post pre2 tag2 ws2 post2 : List Char)
    (h1 : hasTriple (pre ++ [btick, btick]) = false)
    (h2 : tag.all isAlnumChar = true)
    (h3 : ws.all isPySpace = true)
    (h1' : hasTriple (pre2 ++ [btick, btick]) = false)
    (h2' : tag2.all isAlnumChar = true)
    (h3' : ws2.all isPySpace = true)
    (h4 : hasTriple (inner ++ [btick, btick]) = false)
    (hsecond : (searchFence post).isSome = true)
    (hsecond' : (searchFence post2).isSome = true) :
    extract_code (String.mk (pre ++ btick :: btick :: btick ::
        (tag ++ (ws ++ '\n' :: (inner ++ btick :: btick :: btick :: post)))))
      = extract_code (String.mk (pre2 ++ btick :: btick :: btick ::
        (tag2 ++ (ws2 ++ '\n' :: (inner ++ btick :: btick :: btick :: post2))))) := by
  rw [extract_code_fence pre tag ws inner post h1 h2 h3 h4,
    extract_code_fence pre2 tag2 ws2 inner post2 h1' h2' h3' h4]

/-- Witness for C3: two two-block inputs sharing the first block's content. -/
theorem C3_witness :
    extract_code ("```json\nA\n``` ```k\nX\n```") =
      extract_code ("```json\nA\n```no ```q\nZZ\n``` end") := by
  have h := C3_first_block_determines [] (("json").data) [] (("A\n").data)
      ((" ```k\nX\n```").data) [] (("json").data) [] (("no ```q\nZZ\n``` end").data)
      (by decide) (by decide) (by decide) (by decide) (by decide) (by decide)
      (by decide) (by decide) (by decide)
  have e1 : String.mk (([] : List Char) ++ btick :: btick :: btick ::
      (("json").data ++ (([] : List Char) ++ '\n' ::
        (("A\n").data ++ btick :: btick :: btick :: ((" ```k\nX\n```").data)))))
      = ("```json\nA\n``` ```k\nX\n```") := by decide
  have e2 : String.mk (([] : List Char) ++ btick :: btick :: btick ::
      (("json").data ++ (([] : List Char) ++ '\n' ::
        (("A\n").data ++ btick :: btick :: btick :: (("no ```q\nZZ\n``` end").data)))))
      = ("```json\nA\n```no ```q\nZZ\n``` end") := by decide
  rw [e1, e2] at h
  exact h

/-- Counterexample to claim C3 as stated: two inputs each containing two
fenced blocks in the spec's sense, with identical first blocks, on which
`extract_code` nevertheless differs — the first, single-line block is skipped
by the code's pattern and the result tracks the second block's content. -/
theorem C3_counterexample :
    specContainsTwoBlocks ("``` a ``` ```json\nX\n```") = true ∧
    specContainsTwoBlocks ("``` a ``` ```json\nY\n```") = true ∧
    specFirstBlockInterior ("``` a ``` ```json\nX\n```") =
      specFirstBlockInterior ("``` a ``` ```json\nY\n```") ∧
    extract_code ("``` a ``` ```json\nX\n```") ≠
      extract_code ("``` a ``` ```json\nY\n```") :=
  ⟨by decide, by decide, by decide, by decide⟩

/-- On marker-free text the search never matches. -/
theorem hasTriple_searchFence_none : ∀ {l : List Char}, hasTriple l = false → searchFence l = none
  | [], _ => rfl
  | c :: rest, h => by
    have he := hasTriple_cons_elim h
    have htm : tryMatch (c :: rest) = none := by
      unfold tryMatch
      rw [if_neg (by simp [he.1])]
    rw [searchFence_cons_none htm]
    exact hasTriple_searchFence_none he.2

/-- Quote substitution does not change whitespace-ness. -/
theorem replChar_pySpace (c : Char) : isPySpace (replChar c) = isPySpace c := by
  by_cases h : c = squote
  · subst h; decide
  · rw [replChar, if_neg h]

/-- Quote substitution is idempotent on characters. -/
theorem replChar_idem (c : Char) : replChar (replChar c) = replChar c := by
  by_cases h : c = squote
  · subst h; decide
  · have e : replChar c = c := by rw [replChar, if_neg h]
    rw [e]
    exact e

/-- Quote substitution does not create or destroy backticks. -/
theorem replChar_eq_btick (c : Char) : decide (replChar c = btick) = decide (c = btick) := by
  by_cases h : c = squote
  · subst h; decide
  · rw [replChar, if_neg h]

/-- Quote substitution commutes with dropping leading whitespace. -/
theorem dropWhile_replaceQuotes : ∀ l : List Char,
    (replaceQuotes l).dropWhile isPySpace = replaceQuotes (l.dropWhile isPySpace)
  | [] => rfl
  | c :: rest => by
    show (replChar c :: replaceQuotes rest).dropWhile isPySpace = _
    by_cases h : isPySpace c = true
    · rw [List.dropWhile_cons_of_pos (by rw [replChar_pySpace]; exact h),
        dropWhile_replaceQuotes rest, List.dropWhile_cons_of_pos h]
    · rw [List.dropWhile_cons_of_neg (by rw [replChar_pySpace]; exact h),
        List.dropWhile_cons_of_neg h]
      rfl

/-- Quote substitution commutes with reversal. -/
theorem reverse_replaceQuotes (l : List Char) :
    (replaceQuotes l).reverse = replaceQuotes l.reverse :=
  (List.map_reverse replChar l).symm

/-- Quote substitution commutes with stripping. -/
theorem pyStrip_replaceQuotes (l : List Char) :
    pyStrip (replaceQuotes l) = replaceQuotes (pyStrip l) := by
  unfold pyStrip dropTrailingWs
  rw [dropWhile_replaceQuotes, reverse_replaceQuotes, dropWhile_replaceQuotes,
    reverse_replaceQuotes]

/-- Quote substitution is idempotent on lists. -/
theorem replaceQuotes_idem : ∀ l : List Char, replaceQuotes (replaceQuotes l) = replaceQuotes l
  | [] => rfl
  | c :: rest => by
    show replChar (replChar c) :: replaceQuotes (replaceQuotes rest) = replChar c :: replaceQuotes rest
    rw [replChar_idem, replaceQuotes_idem rest]

/-- Quote substitution does not change where the fence pattern can start. -/
theorem startsTriple_replaceQuotes : ∀ l : List Char,
    startsTriple (replaceQuotes l) = startsTriple l
  | [] => rfl
  | [a] => rfl
  | [a, b] => rfl
  | a :: b :: c :: r => by
    show startsTriple (replChar a :: replChar b :: replChar c :: replaceQuotes r) = _
    simp only [startsTriple]
    rw [replChar_eq_btick a, replChar_eq_btick b, replChar_eq_btick c]

/-- Quote substitution does not change whether the marker occurs. -/
theorem hasTriple_replaceQuotes : ∀ l : List Char, hasTriple (replaceQuotes l) = hasTriple l
  | [] => rfl
  | c :: rest => by
    show hasTriple (replChar c :: replaceQuotes rest) = _
    rw [show hasTriple (replChar c :: replaceQuotes rest) =
        (startsTriple (replChar c :: replaceQuotes rest) || hasTriple (replaceQuotes rest)) from rfl,
      show hasTriple (c :: rest) = (startsTriple (c :: rest) || hasTriple rest) from rfl,
      hasTriple_replaceQuotes rest,
      show (replChar c :: replaceQuotes rest) = replaceQuotes (c :: rest) from rfl,
      startsTriple_replaceQuotes (c :: rest)]

/-- A list is its trailing-whitespace-stripped prefix plus that whitespace. -/
theorem dropTrailingWs_decomp (l : List Char) :
    l = dropTrailingWs l ++ (l.reverse.takeWhile isPySpace).reverse := by
  unfold dropTrailingWs
  conv_lhs => rw [← List.reverse_reverse l,
    ← List.takeWhile_append_dropWhile isPySpace l.reverse]
  rw [List.reverse_append]

/-- Stripping preserves the absence of the fence marker. -/
theorem hasTriple_pyStrip {l : List Char} (h : hasTriple l = false) :
    hasTriple (pyStrip l) = false := by
  unfold pyStrip
  have h1 : hasTriple (l.takeWhile isPySpace ++ l.dropWhile isPySpace) = false := by
    rw [List.takeWhile_append_dropWhile]; exact h
  have h2 := hasTriple_append_right h1
  have h3 := dropTrailingWs_decomp (l.dropWhile isPySpace)
  rw [h3] at h2
  exact hasTriple_append_left h2

/-- A list with no leading whitespace still has none after trailing
whitespace is removed. -/
theorem dropWhile_dropTrailingWs (l : List Char) (hl : l.dropWhile isPySpace = l) :
    (dropTrailingWs l).dropWhile isPySpace = dropTrailingWs l := by
  cases hd : dropTrailingWs l with
  | nil => rfl
  | cons a m =>
    have hpre := dropTrailingWs_decomp l
    rw [hd] at hpre
    have ha : isPySpace a = false := by
      cases hx : isPySpace a with
      | false => rfl
      | true =>
        exfalso
        have hlen := length_dropWhile_le' isPySpace
          (m ++ (l.reverse.takeWhile isPySpace).reverse)
        rw [hpre, List.cons_append, List.dropWhile_cons_of_pos hx] at hl
        have hcl := congrArg List.length hl
        simp only [List.length_cons] at hcl
        omega
    exact List.dropWhile_cons_of_neg (by simp [ha])

/-- Removing trailing whitespace is idempotent. -/
theorem dropTrailingWs_idem (l : List Char) :
    dropTrailingWs (dropTrailingWs l) = dropTrailingWs l := by
  unfold dropTrailingWs
  rw [List.reverse_reverse, dropWhile_idem]

/-- Stripping is idempotent. -/
theorem pyStrip_idem (l : List Char) : pyStrip (pyStrip l) = pyStrip l := by
  unfold pyStrip
  rw [dropWhile_dropTrailingWs (l.dropWhile isPySpace) (dropWhile_idem isPySpace l),
    dropTrailingWs_idem]

/-- Claim C4: `extract_code` maps the already-valid double-quoted JSON
example to itself, and on every input free of the triple-backtick fence
marker it is idempotent. -/
theorem C4_idempotent_on_fence_free :
    extract_code ("\x7b\"is_clean\": true, \"description\": \"ok\"\x7d") =
      ("\x7b\"is_clean\": true, \"description\": \"ok\"\x7d") ∧
    ∀ s : String, hasTriple s.data = false →
      extract_code (extract_code s) = extract_code s := by
  constructor
  · decide
  · intro s h
    have h1 : searchFence s.data = none := hasTriple_searchFence_none h
    have e1 : extract_code s = String.mk (replaceQuotes (pyStrip s.data)) := by
      show String.mk (replaceQuotes (extract_code_list s.data)) = _
      rw [extract_code_list_of_none h1]
    rw [e1]
    have h2 : hasTriple (replaceQuotes (pyStrip s.data)) = false := by
      rw [hasTriple_replaceQuotes]
      exact hasTriple_pyStrip h
    have h3 : searchFence (replaceQuotes (pyStrip s.data)) = none :=
      hasTriple_searchFence_none h2
    show String.mk (replaceQuotes (extract_code_list (replaceQuotes (pyStrip s.data)))) = _
    rw [extract_code_list_of_none h3, pyStrip_replaceQuotes, pyStrip_idem, replaceQuotes_idem]

/-- Witness for C4 at a concrete fence-free single-quoted input. -/
theorem C4_witness :
    extract_code (extract_code ("\x7b'a': 1\x7d")) = extract_code ("\x7b'a': 1\x7d") :=
  C4_idempotent_on_fence_free.2 ("\x7b'a': 1\x7d") (by decide)

/-- Claim C10: a response with no `choices` attribute, or with an empty
candidate list, produces the third, silent outcome: neither a verdict nor a
parse-failure report. -/
theorem C10_silent_when_no_candidates :
    mainReport none = MainOutcome.silent ∧ mainReport (some []) = MainOutcome.silent ∧
    (∀ v : String,
      MainOutcome.silent ≠ MainOutcome.verdict v ∧
      MainOutcome.silent ≠ MainOutcome.parseError v) :=
  ⟨rfl, rfl, fun _ => ⟨nofun, nofun⟩⟩

end PureCheck
